import Mathlib

/-
Verification of the first-order-logic clause pipeline (CNF normalization and
unification) of the `bot` repository, embedded shallowly from `fol.py` and
`src/fol.py`.  Machine state that Python keeps globally (the SkolemFunction
counter) is threaded explicitly.
-/

set_option linter.unusedVariables false

/-- A Skolem witness symbol as in the source dataclass `SkolemFunction`:
a name `F_<counter>` plus the captured variable names (the source field is
called `variables`, a reserved word here).  The Python class derives
structural equality over both fields (the counter is a class variable, not
a field). -/
structure SkolemFunction where
  name : String
  vars : List String
deriving DecidableEq, Repr

/-- A predicate argument is either a plain name token (`str` in Python:
a variable or constant symbol) or a Skolem term, mirroring
`PredicateArgument = str | SkolemFunction`. -/
inductive PredicateArgument where
  | str : String → PredicateArgument
  | skolem : SkolemFunction → PredicateArgument
deriving DecidableEq, Repr

/-- The `Predicate` leaf dataclass: a name and an ordered argument tuple. -/
structure Predicate where
  name : String
  arguments : List PredicateArgument
deriving DecidableEq, Repr

/-- The closed clause algebra `FirstOrderLogicClause` of `src/fol.py`:
quantifiers, `Not`, the three binary connectives and `Predicate` leaves. -/
inductive FirstOrderLogicClause where
  | thereExists : List String → FirstOrderLogicClause → FirstOrderLogicClause
  | forAll : List String → FirstOrderLogicClause → FirstOrderLogicClause
  | not : FirstOrderLogicClause → FirstOrderLogicClause
  | and : FirstOrderLogicClause → FirstOrderLogicClause → FirstOrderLogicClause
  | or : FirstOrderLogicClause → FirstOrderLogicClause → FirstOrderLogicClause
  | implies : FirstOrderLogicClause → FirstOrderLogicClause → FirstOrderLogicClause
  | pred : Predicate → FirstOrderLogicClause
deriving DecidableEq, Repr

/-- Structural equality of `Predicate.__eq__`: name and argument tuple
jointly, false against anything that is not a name/arguments match. -/
def Predicate.eq (a b : Predicate) : Bool :=
  a.name == b.name && a.arguments == b.arguments

/-- The hash of `Predicate.__hash__`, parametric in Python's opaque string
hash: the source computes `hash(self.name)`, using the name only. -/
def Predicate.hashPy (hashStr : String → Int) (p : Predicate) : Int :=
  hashStr p.name

/-- The variable-map extension performed by `skolemize` on a `ThereExists`
node: `for v in vars: new_map = {**new_map, v: uq}` (later names win). -/
def updateMap (m : String → Option (List String)) (vs : List String)
    (uq : List String) : String → Option (List String) :=
  vs.foldl (fun acc v => fun k => if k = v then some uq else acc k) m

/-- The argument loop of `skolemize`'s `Predicate` case: each string
argument bound in the map becomes a freshly allocated `SkolemFunction`
(name `F_<counter>`, then the counter is incremented); everything else is
kept.  The Python counter is global; it is threaded here as `n`. -/
def skolemizeArgs (args : List PredicateArgument)
    (m : String → Option (List String)) (n : Nat) :
    List PredicateArgument × Nat :=
  match args with
  | [] => ([], n)
  | .str s :: rest =>
      match m s with
      | some l =>
          let r := skolemizeArgs rest m (n + 1)
          (.skolem ⟨"F_" ++ toString n, l⟩ :: r.1, r.2)
      | none =>
          let r := skolemizeArgs rest m n
          (.str s :: r.1, r.2)
  | .skolem f :: rest =>
      let r := skolemizeArgs rest m n
      (.skolem f :: r.1, r.2)

/-- The `skolemize` recursion of `src/fol.py` (the version that handles
every node kind): drops `ThereExists` binders after recording the current
universal scope for each bound name, extends the universal scope at
`ForAll`, rebuilds the connectives, and rewrites `Predicate` arguments.
Returns the clause together with the threaded allocation counter. -/
def skolemize (clause : FirstOrderLogicClause)
    (universallyQuantifiedVariables : List String)
    (variableMap : String → Option (List String)) (n : Nat) :
    FirstOrderLogicClause × Nat :=
  match clause with
  | .thereExists vs sub =>
      skolemize sub universallyQuantifiedVariables
        (updateMap variableMap vs universallyQuantifiedVariables) n
  | .forAll vs sub =>
      let r := skolemize sub (universallyQuantifiedVariables ++ vs) variableMap n
      (.forAll vs r.1, r.2)
  | .pred p =>
      let r := skolemizeArgs p.arguments variableMap n
      (.pred ⟨p.name, r.1⟩, r.2)
  | .implies l rc =>
      let a := skolemize l universallyQuantifiedVariables variableMap n
      let b := skolemize rc universallyQuantifiedVariables variableMap a.2
      (.implies a.1 b.1, b.2)
  | .and l rc =>
      let a := skolemize l universallyQuantifiedVariables variableMap n
      let b := skolemize rc universallyQuantifiedVariables variableMap a.2
      (.and a.1 b.1, b.2)
  | .or l rc =>
      let a := skolemize l universallyQuantifiedVariables variableMap n
      let b := skolemize rc universallyQuantifiedVariables variableMap a.2
      (.or a.1 b.1, b.2)
  | .not sub =>
      let r := skolemize sub universallyQuantifiedVariables variableMap n
      (.not r.1, r.2)

/-- The `negate` operation of `fol.py`: wraps atoms, strips one `Not`,
dualizes the connectives and quantifiers, and on `Implies(l, r)` returns
`And(l, negate(r))`. -/
def negate (clause : FirstOrderLogicClause) : FirstOrderLogicClause :=
  match clause with
  | .pred p => .not (.pred p)
  | .not sub => sub
  | .and l r => .or (negate l) (negate r)
  | .or l r => .and (negate l) (negate r)
  | .forAll vs sub => .thereExists vs (negate sub)
  | .thereExists vs sub => .forAll vs (negate sub)
  | .implies l r => .and l (negate r)

/-- The `EliminateImplication` pass: `Implies(l, r)` becomes
`Or(Not(l'), r')` with both sides eliminated first; every other node is
rebuilt with eliminated children (the default `ClauseOperation` handlers). -/
def eliminateImplication (clause : FirstOrderLogicClause) :
    FirstOrderLogicClause :=
  match clause with
  | .implies l r => .or (.not (eliminateImplication l)) (eliminateImplication r)
  | .and l r => .and (eliminateImplication l) (eliminateImplication r)
  | .or l r => .or (eliminateImplication l) (eliminateImplication r)
  | .not sub => .not (eliminateImplication sub)
  | .forAll vs sub => .forAll vs (eliminateImplication sub)
  | .thereExists vs sub => .thereExists vs (eliminateImplication sub)
  | .pred p => .pred p

mutual

/-- The `MoveNegationInwards` pass: only `handle_not` is overridden, all
other node kinds are rebuilt with processed children. -/
def moveNegationInwards (clause : FirstOrderLogicClause) :
    FirstOrderLogicClause :=
  match clause with
  | .not sub => negationOf sub
  | .and l r => .and (moveNegationInwards l) (moveNegationInwards r)
  | .or l r => .or (moveNegationInwards l) (moveNegationInwards r)
  | .implies l r => .implies (moveNegationInwards l) (moveNegationInwards r)
  | .forAll vs sub => .forAll vs (moveNegationInwards sub)
  | .thereExists vs sub => .thereExists vs (moveNegationInwards sub)
  | .pred p => .pred p

/-- The body of `MoveNegationInwards.handle_not` on `Not(c)`, case split on
`c`: on a `Predicate` the source returns the bare predicate (the `Not`
wrapper is dropped), quantifiers dualize with the negation pushed down,
double negations unwind, De Morgan applies to `And`/`Or`, and
`Not(Implies(l, r))` becomes `And(run(l), run(Not(r)))`. -/
def negationOf (clause : FirstOrderLogicClause) : FirstOrderLogicClause :=
  match clause with
  | .pred p => .pred p
  | .forAll vs sub => .thereExists vs (negationOf sub)
  | .thereExists vs sub => .forAll vs (negationOf sub)
  | .not sub => moveNegationInwards sub
  | .and l r => .or (negationOf l) (negationOf r)
  | .or l r => .and (negationOf l) (negationOf r)
  | .implies l r => .and (moveNegationInwards l) (negationOf r)

end

/-- Tests whether a clause node is an `And`, as the `isinstance` checks of
`DistributeOr.handle_or` do. -/
def isAnd (clause : FirstOrderLogicClause) : Bool :=
  match clause with
  | .and _ _ => true
  | _ => false

/-- The `DistributeOr` pass.  On `Or`, both operands are distributed first;
if either result is an `And`, the source builds the singleton list
`and_distributed`, picks its only element with `random.choice`, and then
evaluates `(set(and_distributed) - {to_be_distributed}).pop()` — a pop from
an empty set, which raises `KeyError`.  `none` models that raised error;
the recursive re-distribution calls written below that line are never
reached. -/
def distributeOr (clause : FirstOrderLogicClause) :
    Option FirstOrderLogicClause :=
  match clause with
  | .pred p => some (.pred p)
  | .not sub => do
      let s ← distributeOr sub
      some (.not s)
  | .and l r => do
      let a ← distributeOr l
      let b ← distributeOr r
      some (.and a b)
  | .implies l r => do
      let a ← distributeOr l
      let b ← distributeOr r
      some (.implies a b)
  | .forAll vs sub => do
      let s ← distributeOr sub
      some (.forAll vs s)
  | .thereExists vs sub => do
      let s ← distributeOr sub
      some (.thereExists vs s)
  | .or l r => do
      let a ← distributeOr l
      let b ← distributeOr r
      if isAnd a || isAnd b then none
      else some (.or a b)

/-- The `extract_all_predicates` traversal: left-to-right, depth-first
sequence of the `Predicate` leaves. -/
def extract_all_predicates (clause : FirstOrderLogicClause) :
    List Predicate :=
  match clause with
  | .pred p => [p]
  | .and l r => extract_all_predicates l ++ extract_all_predicates r
  | .or l r => extract_all_predicates l ++ extract_all_predicates r
  | .implies l r => extract_all_predicates l ++ extract_all_predicates r
  | .thereExists _ sub => extract_all_predicates sub
  | .forAll _ sub => extract_all_predicates sub
  | .not sub => extract_all_predicates sub

/-- Python's `str.isupper` restricted to ASCII strings: at least one cased
(alphabetic) character, and every cased character uppercase. -/
def pyIsUpper (s : String) : Bool :=
  s.data.any (fun c => c.isAlpha) && s.data.all (fun c => !c.isAlpha || c.isUpper)

/-- The `is_variable` test: for a string argument the source returns
`arg.isupper()`; every `SkolemFunction` argument is not a variable. -/
def is_variable (arg : PredicateArgument) : Bool :=
  match arg with
  | .str s => pyIsUpper s
  | .skolem _ => false

/-- The `is_monolithic_or` check of `src/fol.py`: the clause is built only
from `Or`, `Not` and `Predicate` nodes. -/
def is_monolithic_or (clause : FirstOrderLogicClause) : Bool :=
  match clause with
  | .or l r => is_monolithic_or l && is_monolithic_or r
  | .not sub => is_monolithic_or sub
  | .pred _ => true
  | _ => false

/-- Modelled from the spec: the name of a term when the `is_variable`
predicate holds of it (the unifier branches on this), `none` otherwise. -/
def varName (t : PredicateArgument) : Option String :=
  match t with
  | .str s => if pyIsUpper s then some s else none
  | .skolem _ => none

/-- Modelled from the spec: substitution of the term `b` for the variable
named `v` inside a single term.  A name token equal to `v` becomes `b`; a
Skolem term keeps its identity but its captured-variable list is rewritten —
a captured name equal to `v` is replaced by `b`'s name when `b` is a name
token (the spec's captured lists hold names only, so a Skolem payload
cannot be embedded there and the captured name is left unchanged). -/
def substArg (v : String) (b : PredicateArgument) :
    PredicateArgument → PredicateArgument
  | .str s => if s = v then b else .str s
  | .skolem f =>
      .skolem ⟨f.name, f.vars.map (fun x =>
        match b with
        | .str s => if x = v then s else x
        | .skolem _ => x)⟩

/-- Modelled from the spec: the same substitution applied to both
components of every remaining disagreement pair. -/
def substPairs (v : String) (b : PredicateArgument)
    (l : List (PredicateArgument × PredicateArgument)) :
    List (PredicateArgument × PredicateArgument) :=
  l.map (fun pr => (substArg v b pr.1, substArg v b pr.2))

/-- Modelled from the spec: applying an ordered substitution (earliest pair
first) to a term. -/
def applySub (sub : List (String × PredicateArgument))
    (t : PredicateArgument) : PredicateArgument :=
  sub.foldl (fun t p => substArg p.1 p.2 t) t

/-- Modelled from the spec: the disagreement pairs contributed by one pair
of literals — nothing for distinct names, a hard arity failure for
same-named literals of different arity, and the positional argument pairs
otherwise. -/
def literalPairs (p q : Predicate) :
    Option (List (PredicateArgument × PredicateArgument)) :=
  if p.name = q.name then
    if p.arguments.length = q.arguments.length then
      some (p.arguments.zip q.arguments)
    else none
  else some []

/-- Modelled from the spec: the pairs contributed by one literal of `x`
against every literal of `y`, in order. -/
def pairsWithAll (p : Predicate) :
    List Predicate → Option (List (PredicateArgument × PredicateArgument))
  | [] => some []
  | q :: qs => do
      let h ← literalPairs p q
      let t ← pairsWithAll p qs
      some (h ++ t)

/-- Modelled from the spec: the full disagreement list, pairing every
same-named literal of the first sequence with every literal of the second
(the cross-product breadth the spec documents), earliest-inserted first. -/
def buildDisagreement :
    List Predicate → List Predicate →
    Option (List (PredicateArgument × PredicateArgument))
  | [], _ => some []
  | p :: ps, qs => do
      let h ← pairsWithAll p qs
      let t ← buildDisagreement ps qs
      some (h ++ t)

/-- Modelled from the spec: the unification fixed-point loop.  The earliest
pair is popped; a variable side is bound and substituted through the
remaining pairs (captured-variable lists of Skolem terms included); equal
non-variable pairs are dropped; unequal non-variable pairs fail with
`NoUnifier` (`none`).  Every step consumes exactly one pair and the
substitution keeps the pair count, so the loop is driven structurally by
the pair count `k`; the out-of-fuel branch is unreachable when `k` is the
length of `l`. -/
def resolveAux (k : Nat) (l : List (PredicateArgument × PredicateArgument)) :
    Option (List (String × PredicateArgument)) :=
  match k, l with
  | _, [] => some []
  | 0, _ :: _ => none
  | k + 1, (a, b) :: rest =>
      match varName a with
      | some v => (resolveAux k (substPairs v b rest)).map (fun s => (v, b) :: s)
      | none =>
          match varName b with
          | some w =>
              (resolveAux k (substPairs w a rest)).map (fun s => (w, a) :: s)
          | none => if a = b then resolveAux k rest else none

/-- Modelled from the spec: the unification loop started with fuel equal to
the number of disagreement pairs. -/
def resolve (l : List (PredicateArgument × PredicateArgument)) :
    Option (List (String × PredicateArgument)) :=
  resolveAux l.length l

/-- Modelled from the spec: `unify` — the repository has no unifier source
file, only the spec's §4.7 contract.  Literals are extracted from both
clauses, the disagreement list is built, and the loop resolves it;
`none` models the `NoUnifier` failure of either stage. -/
def unify (x y : FirstOrderLogicClause) :
    Option (List (String × PredicateArgument)) := do
  let d ← buildDisagreement (extract_all_predicates x) (extract_all_predicates y)
  resolve d

/-- The spec's unification postcondition: applying the substitution to the
arguments of every pair of same-named literals across the two clauses
yields identical argument lists. -/
def makesIdentical (sub : List (String × PredicateArgument))
    (x y : FirstOrderLogicClause) : Prop :=
  ∀ p ∈ extract_all_predicates x, ∀ q ∈ extract_all_predicates y,
    p.name = q.name →
      p.arguments.map (applySub sub) = q.arguments.map (applySub sub)

instance (sub : List (String × PredicateArgument))
    (x y : FirstOrderLogicClause) : Decidable (makesIdentical sub x y) := by
  unfold makesIdentical
  infer_instance

/-- Whether a clause tree contains no `ThereExists` node. -/
def noThereExists (clause : FirstOrderLogicClause) : Bool :=
  match clause with
  | .thereExists _ _ => false
  | .forAll _ sub => noThereExists sub
  | .not sub => noThereExists sub
  | .and l r => noThereExists l && noThereExists r
  | .or l r => noThereExists l && noThereExists r
  | .implies l r => noThereExists l && noThereExists r
  | .pred _ => true

/-- Whether a clause tree contains no `Implies` node. -/
def noImplies (clause : FirstOrderLogicClause) : Bool :=
  match clause with
  | .implies _ _ => false
  | .forAll _ sub => noImplies sub
  | .thereExists _ sub => noImplies sub
  | .not sub => noImplies sub
  | .and l r => noImplies l && noImplies r
  | .or l r => noImplies l && noImplies r
  | .pred _ => true

/-- Whether every `Not` node of the tree has a `Predicate` child. -/
def notArePredicates (clause : FirstOrderLogicClause) : Bool :=
  match clause with
  | .not (.pred _) => true
  | .not _ => false
  | .forAll _ sub => notArePredicates sub
  | .thereExists _ sub => notArePredicates sub
  | .and l r => notArePredicates l && notArePredicates r
  | .or l r => notArePredicates l && notArePredicates r
  | .implies l r => notArePredicates l && notArePredicates r
  | .pred _ => true

/-- Whether no predicate argument of the tree is a Skolem term yet (the
spec's lifecycle: Skolem terms are created only during Skolemization). -/
def noSkolems (clause : FirstOrderLogicClause) : Bool :=
  match clause with
  | .pred p => p.arguments.all (fun a =>
      match a with
      | .str _ => true
      | .skolem _ => false)
  | .not sub => noSkolems sub
  | .forAll _ sub => noSkolems sub
  | .thereExists _ sub => noSkolems sub
  | .and l r => noSkolems l && noSkolems r
  | .or l r => noSkolems l && noSkolems r
  | .implies l r => noSkolems l && noSkolems r

/-- The Skolem terms among a list of predicate arguments. -/
def argSkolems (args : List PredicateArgument) : List SkolemFunction :=
  match args with
  | [] => []
  | .str _ :: rest => argSkolems rest
  | .skolem f :: rest => f :: argSkolems rest

/-- All Skolem terms embedded in a clause tree, left to right. -/
def skolemFuncs (clause : FirstOrderLogicClause) : List SkolemFunction :=
  match clause with
  | .pred p => argSkolems p.arguments
  | .not sub => skolemFuncs sub
  | .forAll _ sub => skolemFuncs sub
  | .thereExists _ sub => skolemFuncs sub
  | .and l r => skolemFuncs l ++ skolemFuncs r
  | .or l r => skolemFuncs l ++ skolemFuncs r
  | .implies l r => skolemFuncs l ++ skolemFuncs r

/-- For every existentially bound variable of the clause, the universal
scope at its binder: the universal variables enclosing that `ThereExists`
node, in binding order, starting from the ambient scope `uq`.  This is the
scope `skolemize` snapshots into its variable map. -/
def exScopes (clause : FirstOrderLogicClause) (uq : List String) :
    List (String × List String) :=
  match clause with
  | .thereExists vs sub => vs.map (fun v => (v, uq)) ++ exScopes sub uq
  | .forAll vs sub => exScopes sub (uq ++ vs)
  | .not sub => exScopes sub uq
  | .and l r => exScopes l uq ++ exScopes r uq
  | .or l r => exScopes l uq ++ exScopes r uq
  | .implies l r => exScopes l uq ++ exScopes r uq
  | .pred _ => []

/-- The existentially bound variable names of a clause, in traversal
order. -/
def exBoundNames (clause : FirstOrderLogicClause) : List String :=
  match clause with
  | .thereExists vs sub => vs ++ exBoundNames sub
  | .forAll _ sub => exBoundNames sub
  | .not sub => exBoundNames sub
  | .and l r => exBoundNames l ++ exBoundNames r
  | .or l r => exBoundNames l ++ exBoundNames r
  | .implies l r => exBoundNames l ++ exBoundNames r
  | .pred _ => []

/-- All quantifier-bound variable names of a clause, in traversal order. -/
def boundNames (clause : FirstOrderLogicClause) : List String :=
  match clause with
  | .thereExists vs sub => vs ++ boundNames sub
  | .forAll vs sub => vs ++ boundNames sub
  | .not sub => boundNames sub
  | .and l r => boundNames l ++ boundNames r
  | .or l r => boundNames l ++ boundNames r
  | .implies l r => boundNames l ++ boundNames r
  | .pred _ => []

/-- The effective existential variable map at each `Predicate` leaf of the
clause, in the left-to-right extraction order, built exactly as
`skolemize`'s traversal builds it: `ThereExists` snapshots the current
universal scope for each bound name, `ForAll` extends the scope. -/
def leafMaps (clause : FirstOrderLogicClause) (uq : List String)
    (m : String → Option (List String)) :
    List (String → Option (List String)) :=
  match clause with
  | .pred _ => [m]
  | .thereExists vs sub => leafMaps sub uq (updateMap m vs uq)
  | .forAll vs sub => leafMaps sub (uq ++ vs) m
  | .not sub => leafMaps sub uq m
  | .and l r => leafMaps l uq m ++ leafMaps r uq m
  | .or l r => leafMaps l uq m ++ leafMaps r uq m
  | .implies l r => leafMaps l uq m ++ leafMaps r uq m

/-- Claim C1: the source allocates a fresh `SkolemFunction` identity at
every occurrence of a bound existential variable, not one per binder:
skolemizing `there_exists (Y) P(Y, Y)` replaces the two occurrences of `Y`
by the two distinct Skolem terms `F_0()` and `F_1()`. -/
theorem skolemize_fresh_per_occurrence_c1 :
    (skolemize (.thereExists ["Y"] (.pred ⟨"P", [.str "Y", .str "Y"]⟩))
        [] (fun _ => none) 0).1
      = .pred ⟨"P", [.skolem ⟨"F_0", []⟩, .skolem ⟨"F_1", []⟩]⟩
    ∧ (⟨"F_0", []⟩ : SkolemFunction) ≠ ⟨"F_1", []⟩ := by
  constructor
  · decide
  · decide

/-- Claim C2: on `Or(And(P(A), Q(B)), R(C))` the distributor does not
return the distributed conjunction — the `handle_or` branch pops from an
empty set and raises `KeyError` (modelled by `none`). -/
theorem distributeOr_keyError_c2 :
    distributeOr (.or (.and (.pred ⟨"P", [.str "A"]⟩)
        (.pred ⟨"Q", [.str "B"]⟩)) (.pred ⟨"R", [.str "C"]⟩)) = none := by
  decide

/-- Claim C3: `negate` maps an atom to its negation wrapped exactly once,
but the `MoveNegationInwards` pass applied to `Not(P(A))` returns the bare
`P(A)`, silently dropping the negation instead of keeping `Not` above the
atom. -/
theorem moveNegationInwards_drops_not_c3 :
    moveNegationInwards (.not (.pred ⟨"P", [.str "A"]⟩))
        = .pred ⟨"P", [.str "A"]⟩
    ∧ negate (.pred ⟨"P", [.str "A"]⟩) = .not (.pred ⟨"P", [.str "A"]⟩) :=
  ⟨rfl, rfl⟩

/-- Claim C6: predicate equality compares name and arguments jointly, but
the hash is computed from the name alone — whatever Python's string hash
is, `P(A)` and `P(B)` are unequal yet always hash identically. -/
theorem predicate_hash_ignores_arguments_c6 :
    Predicate.eq ⟨"P", [.str "A"]⟩ ⟨"P", [.str "B"]⟩ = false
    ∧ ∀ hashStr : String → Int,
        Predicate.hashPy hashStr ⟨"P", [.str "A"]⟩
          = Predicate.hashPy hashStr ⟨"P", [.str "B"]⟩ :=
  ⟨by decide, fun _ => rfl⟩

/-- Claim C8: `distributeOr` is not a total clause-to-clause function: the
moment a distribution step is needed (here the right operand distributes to
an `And`) the source raises `KeyError` instead of recursing, so the
inversion-reducing rewrite the claim describes never runs. -/
theorem distributeOr_not_total_c8 :
    distributeOr (.or (.pred ⟨"R", [.str "C"]⟩)
        (.and (.pred ⟨"P", [.str "A"]⟩) (.pred ⟨"Q", [.str "B"]⟩))) = none := by
  decide

/-- Claim C7, counterexample: `"Xy"` is non-empty and starts with an
uppercase character, yet `is_variable` rejects it (Python `str.isupper`
requires every cased character to be uppercase). -/
theorem is_variable_not_first_char_c7 :
    is_variable (.str "Xy") = false
    ∧ "Xy".data.head? = some 'X'
    ∧ 'X'.isUpper = true := by
  decide

/-- Claim C7, amended: `is_variable` holds of a string iff it contains at
least one alphabetic character and every alphabetic character in it is
uppercase (the `str.isupper` convention, not a first-character test), and
it is false on every Skolem term. -/
theorem is_variable_isupper_c7 (s : String) (f : SkolemFunction) :
    (is_variable (.str s) = true ↔
      ((∃ c ∈ s.data, c.isAlpha = true)
        ∧ ∀ c ∈ s.data, c.isAlpha = true → c.isUpper = true))
    ∧ is_variable (.skolem f) = false := by
  constructor
  · simp only [is_variable, pyIsUpper, Bool.and_eq_true, List.any_eq_true,
      List.all_eq_true, Bool.or_eq_true, Bool.not_eq_true']
    constructor
    · rintro ⟨h1, h2⟩
      refine ⟨h1, fun c hc ha => ?_⟩
      rcases h2 c hc with h | h
      · rw [ha] at h; cases h
      · exact h
    · rintro ⟨h1, h2⟩
      refine ⟨h1, fun c hc => ?_⟩
      by_cases ha : c.isAlpha = true
      · exact Or.inr (h2 c hc ha)
      · exact Or.inl (by simpa using ha)
  · rfl

/-- The implication-elimination pass leaves no `Implies` node behind. -/
theorem noImplies_eliminateImplication (c : FirstOrderLogicClause) :
    noImplies (eliminateImplication c) = true := by
  induction c <;> simp_all [eliminateImplication, noImplies]

/-- Moving negations inwards introduces no `Implies` node, in both entry
points of the mutual recursion. -/
theorem noImplies_moveNegationInwards (c : FirstOrderLogicClause) :
    (noImplies c = true → noImplies (moveNegationInwards c) = true)
    ∧ (noImplies c = true → noImplies (negationOf c) = true) := by
  induction c <;> simp_all [moveNegationInwards, negationOf, noImplies]

/-- After moving negations inwards, every `Not` node has a `Predicate`
child (the pass leaves no `Not` at all, so the check holds), in both entry
points of the mutual recursion. -/
theorem notArePredicates_moveNegationInwards (c : FirstOrderLogicClause) :
    notArePredicates (moveNegationInwards c) = true
    ∧ notArePredicates (negationOf c) = true := by
  induction c <;> simp_all [moveNegationInwards, negationOf, notArePredicates]

/-- Claim C5: the Negation Normalizer — implication elimination followed by
moving negations inwards — leaves no `Implies` node, and every remaining
`Not` node has a `Predicate` child. -/
theorem negationNormalizer_nnf_c5 (c : FirstOrderLogicClause) :
    noImplies (moveNegationInwards (eliminateImplication c)) = true
    ∧ notArePredicates (moveNegationInwards (eliminateImplication c)) = true :=
  ⟨(noImplies_moveNegationInwards (eliminateImplication c)).1
      (noImplies_eliminateImplication c),
    (notArePredicates_moveNegationInwards (eliminateImplication c)).1⟩

/-- Claim C10: on clauses with no `Implies` node and every `Not` directly
above a `Predicate`, `negate` is an involution. -/
theorem negate_involution_c10 (c : FirstOrderLogicClause)
    (h1 : noImplies c = true) (h2 : notArePredicates c = true) :
    negate (negate c) = c := by
  induction c with
  | pred p => rfl
  | not sub ih => cases sub <;> simp_all [negate, notArePredicates]
  | and l r ihl ihr => simp_all [negate, noImplies, notArePredicates]
  | or l r ihl ihr => simp_all [negate, noImplies, notArePredicates]
  | forAll vs sub ih => simp_all [negate, noImplies, notArePredicates]
  | thereExists vs sub ih => simp_all [negate, noImplies, notArePredicates]
  | implies l r ihl ihr => simp_all [noImplies]

/-- Claim C10 witness: the involution at the concrete NNF clause
`(not P(A)) and Q()`. -/
theorem negate_involution_c10_witness :
    noImplies (.and (.not (.pred ⟨"P", [.str "A"]⟩)) (.pred ⟨"Q", []⟩)) = true
    ∧ notArePredicates
        (.and (.not (.pred ⟨"P", [.str "A"]⟩)) (.pred ⟨"Q", []⟩)) = true
    ∧ negate (negate (.and (.not (.pred ⟨"P", [.str "A"]⟩))
          (.pred ⟨"Q", []⟩)))
        = .and (.not (.pred ⟨"P", [.str "A"]⟩)) (.pred ⟨"Q", []⟩) :=
  ⟨by decide, by decide, negate_involution_c10 _ (by decide) (by decide)⟩

/-- The dict-update loop of `skolemize` is lookup with last-written-wins:
a key bound by the loop maps to the snapshot scope, anything else falls
through to the old map. -/
theorem updateMap_eq (vs : List String) (m : String → Option (List String))
    (uq : List String) (k : String) :
    updateMap m vs uq k = if k ∈ vs then some uq else m k := by
  induction vs generalizing m with
  | nil => simp [updateMap]
  | cons v vs ih =>
      have ih2 := ih (fun k => if k = v then some uq else m k)
      simp only [updateMap, List.foldl_cons] at ih2 ⊢
      rw [ih2]
      by_cases hk : k ∈ vs
      · simp [hk]
      · by_cases hv : k = v <;> simp [hk, hv]

/-- Skolemization drops every `ThereExists` node. -/
theorem noThereExists_skolemize (c : FirstOrderLogicClause) :
    ∀ (uq : List String) (m : String → Option (List String)) (n : Nat),
      noThereExists (skolemize c uq m n).1 = true := by
  induction c <;> intro uq m n <;> simp_all [skolemize, noThereExists]

/-- Every Skolem term built by the argument loop captures the scope the
variable map holds for some name, provided the incoming arguments are all
name tokens. -/
theorem argSkolems_skolemizeArgs (args : List PredicateArgument)
    (m : String → Option (List String))
    (hargs : ∀ a ∈ args, ∃ s, a = .str s) :
    ∀ (n : Nat), ∀ sf ∈ argSkolems (skolemizeArgs args m n).1,
      ∃ v, m v = some sf.vars := by
  induction args with
  | nil => intro n sf hsf; simp [skolemizeArgs, argSkolems] at hsf
  | cons a rest ih =>
      intro n sf hsf
      obtain ⟨s, rfl⟩ := hargs a (List.mem_cons_self a rest)
      have hrest : ∀ a ∈ rest, ∃ s, a = .str s :=
        fun a ha => hargs a (List.mem_cons_of_mem _ ha)
      cases hm : m s with
      | some l =>
          simp only [skolemizeArgs, hm] at hsf
          simp only [argSkolems] at hsf
          rcases List.mem_cons.mp hsf with rfl | hmem
          · exact ⟨s, hm⟩
          · exact ih hrest (n + 1) sf hmem
      | none =>
          simp only [skolemizeArgs, hm] at hsf
          simp only [argSkolems] at hsf
          exact ih hrest n sf hsf

/-- Scope invariant of Skolemization: on a clause with no pre-existing
Skolem terms, every Skolem term of the result captures either a scope
already recorded in the incoming variable map or the universal scope of
one of the clause's own existential binders. -/
theorem skolemFuncs_skolemize (c : FirstOrderLogicClause) :
    ∀ (uq : List String) (m : String → Option (List String)) (n : Nat),
      noSkolems c = true →
      ∀ sf ∈ skolemFuncs (skolemize c uq m n).1,
        (∃ v, m v = some sf.vars) ∨ ∃ v, (v, sf.vars) ∈ exScopes c uq := by
  induction c with
  | thereExists vs sub ih =>
      intro uq m n hns sf hsf
      simp only [skolemize] at hsf
      have hns2 : noSkolems sub = true := by simpa [noSkolems] using hns
      rcases ih uq (updateMap m vs uq) n hns2 sf hsf with ⟨v, hv⟩ | ⟨v, hv⟩
      · rw [updateMap_eq] at hv
        by_cases hmem : v ∈ vs
        · rw [if_pos hmem] at hv
          have hveq : sf.vars = uq := by
            injection hv with h
            exact h.symm
          refine Or.inr ⟨v, ?_⟩
          simp only [exScopes, List.mem_append]
          exact Or.inl (List.mem_map.mpr ⟨v, hmem, by rw [hveq]⟩)
        · rw [if_neg hmem] at hv
          exact Or.inl ⟨v, hv⟩
      · refine Or.inr ⟨v, ?_⟩
        simp only [exScopes, List.mem_append]
        exact Or.inr hv
  | forAll vs sub ih =>
      intro uq m n hns sf hsf
      simp only [skolemize, skolemFuncs] at hsf
      have hns2 : noSkolems sub = true := by simpa [noSkolems] using hns
      rcases ih (uq ++ vs) m n hns2 sf hsf with h | ⟨v, hv⟩
      · exact Or.inl h
      · exact Or.inr ⟨v, by simpa [exScopes] using hv⟩
  | not sub ih =>
      intro uq m n hns sf hsf
      simp only [skolemize, skolemFuncs] at hsf
      have hns2 : noSkolems sub = true := by simpa [noSkolems] using hns
      rcases ih uq m n hns2 sf hsf with h | ⟨v, hv⟩
      · exact Or.inl h
      · exact Or.inr ⟨v, by simpa [exScopes] using hv⟩
  | and l r ihl ihr =>
      intro uq m n hns sf hsf
      have hns2 : noSkolems l = true ∧ noSkolems r = true := by
        simpa [noSkolems, Bool.and_eq_true] using hns
      simp only [skolemize, skolemFuncs, List.mem_append] at hsf
      rcases hsf with h | h
      · rcases ihl uq m n hns2.1 sf h with h2 | ⟨v, hv⟩
        · exact Or.inl h2
        · exact Or.inr ⟨v, by simp only [exScopes, List.mem_append]; exact Or.inl hv⟩
      · rcases ihr uq m (skolemize l uq m n).2 hns2.2 sf h with h2 | ⟨v, hv⟩
        · exact Or.inl h2
        · exact Or.inr ⟨v, by simp only [exScopes, List.mem_append]; exact Or.inr hv⟩
  | or l r ihl ihr =>
      intro uq m n hns sf hsf
      have hns2 : noSkolems l = true ∧ noSkolems r = true := by
        simpa [noSkolems, Bool.and_eq_true] using hns
      simp only [skolemize, skolemFuncs, List.mem_append] at hsf
      rcases hsf with h | h
      · rcases ihl uq m n hns2.1 sf h with h2 | ⟨v, hv⟩
        · exact Or.inl h2
        · exact Or.inr ⟨v, by simp only [exScopes, List.mem_append]; exact Or.inl hv⟩
      · rcases ihr uq m (skolemize l uq m n).2 hns2.2 sf h with h2 | ⟨v, hv⟩
        · exact Or.inl h2
        · exact Or.inr ⟨v, by simp only [exScopes, List.mem_append]; exact Or.inr hv⟩
  | implies l r ihl ihr =>
      intro uq m n hns sf hsf
      have hns2 : noSkolems l = true ∧ noSkolems r = true := by
        simpa [noSkolems, Bool.and_eq_true] using hns
      simp only [skolemize, skolemFuncs, List.mem_append] at hsf
      rcases hsf with h | h
      · rcases ihl uq m n hns2.1 sf h with h2 | ⟨v, hv⟩
        · exact Or.inl h2
        · exact Or.inr ⟨v, by simp only [exScopes, List.mem_append]; exact Or.inl hv⟩
      · rcases ihr uq m (skolemize l uq m n).2 hns2.2 sf h with h2 | ⟨v, hv⟩
        · exact Or.inl h2
        · exact Or.inr ⟨v, by simp only [exScopes, List.mem_append]; exact Or.inr hv⟩
  | pred p =>
      intro uq m n hns sf hsf
      simp only [skolemize, skolemFuncs] at hsf
      have hall : ∀ a ∈ p.arguments,
          (match a with | .str _ => true | .skolem _ => false) = true := by
        simpa [noSkolems, List.all_eq_true] using hns
      have hargs : ∀ a ∈ p.arguments, ∃ s, a = .str s := by
        intro a ha
        cases a with
        | str s => exact ⟨s, rfl⟩
        | skolem f => simpa using hall _ ha
      exact Or.inl (argSkolems_skolemizeArgs p.arguments m hargs n sf hsf)

/-- The keys of the existential-scope table are the existentially bound
names, in order, independently of the ambient universal scope. -/
theorem exScopes_keys (c : FirstOrderLogicClause) :
    ∀ uq, (exScopes c uq).map Prod.fst = exBoundNames c := by
  induction c <;> intro uq <;>
    simp_all [exScopes, exBoundNames, List.map_map, Function.comp_def]

/-- The existentially bound names form a sublist of all bound names. -/
theorem exBoundNames_sublist_boundNames (c : FirstOrderLogicClause) :
    List.Sublist (exBoundNames c) (boundNames c) := by
  induction c with
  | thereExists vs sub ih => exact List.Sublist.append (List.Sublist.refl vs) ih
  | forAll vs sub ih => exact ih.trans (List.sublist_append_right vs (boundNames sub))
  | not sub ih => exact ih
  | and l r ihl ihr => exact List.Sublist.append ihl ihr
  | or l r ihl ihr => exact List.Sublist.append ihl ihr
  | implies l r ihl ihr => exact List.Sublist.append ihl ihr
  | pred p => exact List.Sublist.refl []

/-- An association list with no duplicate keys is functional. -/
theorem nodupKeys_functional {α β : Type} :
    ∀ (L : List (α × β)), (L.map Prod.fst).Nodup →
      ∀ (a : α) (b b2 : β), (a, b) ∈ L → (a, b2) ∈ L → b = b2 := by
  intro L
  induction L with
  | nil => intro _ a b b2 hb; cases hb
  | cons p L ih =>
      intro hnd a b b2 hb hb2
      simp only [List.map_cons, List.nodup_cons] at hnd
      have hmem : ∀ x : β, (a, x) ∈ L → a ∈ List.map Prod.fst L := by
        intro x hx
        simpa using List.mem_map_of_mem Prod.fst hx
      rcases List.mem_cons.mp hb with h1 | h1 <;>
        rcases List.mem_cons.mp hb2 with h2 | h2
      · exact congrArg Prod.snd (h1.trans h2.symm)
      · exact absurd (hmem b2 h2) (by rw [← h1] at hnd; simpa using hnd.1)
      · exact absurd (hmem b h1) (by rw [← h2] at hnd; simpa using hnd.1)
      · exact ih hnd.2 a b b2 h1 h2

/-- Skolemization keeps the number and order of predicate leaves. -/
theorem extract_length_skolemize (c : FirstOrderLogicClause) :
    ∀ (uq : List String) (m : String → Option (List String)) (n : Nat),
      (extract_all_predicates (skolemize c uq m n).1).length
        = (extract_all_predicates c).length := by
  induction c <;> intro uq m n <;>
    simp_all [skolemize, extract_all_predicates]

/-- There is one effective map per predicate leaf. -/
theorem leafMaps_length (c : FirstOrderLogicClause) :
    ∀ (uq : List String) (m : String → Option (List String)),
      (leafMaps c uq m).length = (extract_all_predicates c).length := by
  induction c <;> intro uq m <;>
    simp_all [leafMaps, extract_all_predicates]

/-- Every binding held by a leaf's effective map is either inherited from
the incoming map or is the snapshot scope of one of the clause's own
existential binders for exactly that name. -/
theorem leafMaps_scoped (c : FirstOrderLogicClause) :
    ∀ (uq : List String) (m : String → Option (List String)),
      ∀ mp ∈ leafMaps c uq m, ∀ (v : String) (l : List String),
        mp v = some l → m v = some l ∨ (v, l) ∈ exScopes c uq := by
  induction c with
  | pred p =>
      intro uq m mp hmp v l hv
      simp only [leafMaps, List.mem_singleton] at hmp
      subst hmp
      exact Or.inl hv
  | thereExists vs sub ih =>
      intro uq m mp hmp v l hv
      simp only [leafMaps] at hmp
      rcases ih uq (updateMap m vs uq) mp hmp v l hv with h | h
      · rw [updateMap_eq] at h
        by_cases hmem : v ∈ vs
        · rw [if_pos hmem] at h
          injection h with h
          refine Or.inr ?_
          simp only [exScopes, List.mem_append]
          exact Or.inl (List.mem_map.mpr ⟨v, hmem, by rw [h]⟩)
        · rw [if_neg hmem] at h
          exact Or.inl h
      · refine Or.inr ?_
        simp only [exScopes, List.mem_append]
        exact Or.inr h
  | forAll vs sub ih =>
      intro uq m mp hmp v l hv
      simp only [leafMaps] at hmp
      rcases ih (uq ++ vs) m mp hmp v l hv with h | h
      · exact Or.inl h
      · exact Or.inr (by simpa [exScopes] using h)
  | not sub ih =>
      intro uq m mp hmp v l hv
      simp only [leafMaps] at hmp
      rcases ih uq m mp hmp v l hv with h | h
      · exact Or.inl h
      · exact Or.inr (by simpa [exScopes] using h)
  | and cl cr ihl ihr =>
      intro uq m mp hmp v l hv
      simp only [leafMaps, List.mem_append] at hmp
      rcases hmp with hmp | hmp
      · rcases ihl uq m mp hmp v l hv with h | h
        · exact Or.inl h
        · exact Or.inr (by simp only [exScopes, List.mem_append]; exact Or.inl h)
      · rcases ihr uq m mp hmp v l hv with h | h
        · exact Or.inl h
        · exact Or.inr (by simp only [exScopes, List.mem_append]; exact Or.inr h)
  | or cl cr ihl ihr =>
      intro uq m mp hmp v l hv
      simp only [leafMaps, List.mem_append] at hmp
      rcases hmp with hmp | hmp
      · rcases ihl uq m mp hmp v l hv with h | h
        · exact Or.inl h
        · exact Or.inr (by simp only [exScopes, List.mem_append]; exact Or.inl h)
      · rcases ihr uq m mp hmp v l hv with h | h
        · exact Or.inl h
        · exact Or.inr (by simp only [exScopes, List.mem_append]; exact Or.inr h)
  | implies cl cr ihl ihr =>
      intro uq m mp hmp v l hv
      simp only [leafMaps, List.mem_append] at hmp
      rcases hmp with hmp | hmp
      · rcases ihl uq m mp hmp v l hv with h | h
        · exact Or.inl h
        · exact Or.inr (by simp only [exScopes, List.mem_append]; exact Or.inl h)
      · rcases ihr uq m mp hmp v l hv with h | h
        · exact Or.inl h
        · exact Or.inr (by simp only [exScopes, List.mem_append]; exact Or.inr h)

/-- Positional characterization of the argument loop: the output has the
arity of the input, a name argument bound in the map becomes, at the same
position, a Skolem term capturing exactly that name's entry of the map,
and an unbound name argument stays unchanged at its position. -/
theorem skolemizeArgs_get :
    ∀ (args : List PredicateArgument) (m : String → Option (List String))
      (n : Nat),
      (skolemizeArgs args m n).1.length = args.length
      ∧ ∀ (i : Nat) (s : String), args[i]? = some (.str s) →
          (∀ l, m s = some l →
              ∃ nm, (skolemizeArgs args m n).1[i]? = some (.skolem ⟨nm, l⟩))
          ∧ (m s = none → (skolemizeArgs args m n).1[i]? = some (.str s)) := by
  intro args
  induction args with
  | nil =>
      intro m n
      refine ⟨rfl, ?_⟩
      intro i s h
      simp at h
  | cons a rest ih =>
      intro m n
      cases a with
      | str s0 =>
          cases hm : m s0 with
          | some l0 =>
              refine ⟨by simp [skolemizeArgs, hm, (ih m (n + 1)).1], ?_⟩
              intro i s h
              cases i with
              | zero =>
                  simp only [List.getElem?_cons_zero, Option.some.injEq] at h
                  injection h with h
                  subst h
                  constructor
                  · intro l hl
                    rw [hm] at hl
                    injection hl with hl
                    subst hl
                    exact ⟨"F_" ++ toString n, by simp [skolemizeArgs, hm]⟩
                  · intro hnone
                    rw [hm] at hnone
                    cases hnone
              | succ i =>
                  simp only [List.getElem?_cons_succ] at h
                  have h2 := (ih m (n + 1)).2 i s h
                  constructor
                  · intro l hl
                    obtain ⟨nm, hnm⟩ := h2.1 l hl
                    exact ⟨nm, by simp [skolemizeArgs, hm, hnm]⟩
                  · intro hnone
                    simp [skolemizeArgs, hm, h2.2 hnone]
          | none =>
              refine ⟨by simp [skolemizeArgs, hm, (ih m n).1], ?_⟩
              intro i s h
              cases i with
              | zero =>
                  simp only [List.getElem?_cons_zero, Option.some.injEq] at h
                  injection h with h
                  subst h
                  constructor
                  · intro l hl
                    rw [hm] at hl
                    cases hl
                  · intro _
                    simp [skolemizeArgs, hm]
              | succ i =>
                  simp only [List.getElem?_cons_succ] at h
                  have h2 := (ih m n).2 i s h
                  constructor
                  · intro l hl
                    obtain ⟨nm, hnm⟩ := h2.1 l hl
                    exact ⟨nm, by simp [skolemizeArgs, hm, hnm]⟩
                  · intro hnone
                    simp [skolemizeArgs, hm, h2.2 hnone]
      | skolem f =>
          refine ⟨by simp [skolemizeArgs, (ih m n).1], ?_⟩
          intro i s h
          cases i with
          | zero => simp at h
          | succ i =>
              simp only [List.getElem?_cons_succ] at h
              have h2 := (ih m n).2 i s h
              constructor
              · intro l hl
                obtain ⟨nm, hnm⟩ := h2.1 l hl
                exact ⟨nm, by simp [skolemizeArgs, hnm]⟩
              · intro hnone
                simp [skolemizeArgs, h2.2 hnone]

/-- Leaf correspondence: the `j`-th predicate leaf of the Skolemized clause
is exactly the `j`-th input leaf with its arguments rewritten by the
argument loop under that leaf's own effective map (at some counter
value). -/
theorem skolemize_leaf_get (c : FirstOrderLogicClause) :
    ∀ (uq : List String) (m : String → Option (List String)) (n j : Nat)
      (ip : Predicate) (mp : String → Option (List String)),
      (extract_all_predicates c)[j]? = some ip →
      (leafMaps c uq m)[j]? = some mp →
      ∃ nj, (extract_all_predicates (skolemize c uq m n).1)[j]?
          = some ⟨ip.name, (skolemizeArgs ip.arguments mp nj).1⟩ := by
  induction c with
  | pred p =>
      intro uq m n j ip mp hip hmp
      cases j with
      | zero =>
          simp only [extract_all_predicates, List.getElem?_cons_zero,
            Option.some.injEq] at hip
          simp only [leafMaps, List.getElem?_cons_zero,
            Option.some.injEq] at hmp
          subst hip
          subst hmp
          exact ⟨n, by simp [skolemize, extract_all_predicates]⟩
      | succ j => simp [extract_all_predicates] at hip
  | thereExists vs sub ih =>
      intro uq m n j ip mp hip hmp
      simp only [extract_all_predicates] at hip
      simp only [leafMaps] at hmp
      simpa only [skolemize] using ih uq (updateMap m vs uq) n j ip mp hip hmp
  | forAll vs sub ih =>
      intro uq m n j ip mp hip hmp
      simp only [extract_all_predicates] at hip
      simp only [leafMaps] at hmp
      simpa only [skolemize, extract_all_predicates] using
        ih (uq ++ vs) m n j ip mp hip hmp
  | not sub ih =>
      intro uq m n j ip mp hip hmp
      simp only [extract_all_predicates] at hip
      simp only [leafMaps] at hmp
      simpa only [skolemize, extract_all_predicates] using
        ih uq m n j ip mp hip hmp
  | and cl cr ihl ihr =>
      intro uq m n j ip mp hip hmp
      simp only [extract_all_predicates] at hip
      simp only [leafMaps] at hmp
      by_cases hj : j < (extract_all_predicates cl).length
      · rw [List.getElem?_append_left hj] at hip
        rw [List.getElem?_append_left (by rw [leafMaps_length]; exact hj)] at hmp
        obtain ⟨nj, hnj⟩ := ihl uq m n j ip mp hip hmp
        refine ⟨nj, ?_⟩
        simp only [skolemize, extract_all_predicates]
        rw [List.getElem?_append_left (by rw [extract_length_skolemize]; exact hj)]
        exact hnj
      · have hj2 : (extract_all_predicates cl).length ≤ j := Nat.le_of_not_lt hj
        rw [List.getElem?_append_right hj2] at hip
        rw [List.getElem?_append_right (by rw [leafMaps_length]; exact hj2),
          leafMaps_length] at hmp
        obtain ⟨nj, hnj⟩ := ihr uq m (skolemize cl uq m n).2
          (j - (extract_all_predicates cl).length) ip mp hip hmp
        refine ⟨nj, ?_⟩
        simp only [skolemize, extract_all_predicates]
        rw [List.getElem?_append_right
          (by rw [extract_length_skolemize]; exact hj2), extract_length_skolemize]
        exact hnj
  | or cl cr ihl ihr =>
      intro uq m n j ip mp hip hmp
      simp only [extract_all_predicates] at hip
      simp only [leafMaps] at hmp
      by_cases hj : j < (extract_all_predicates cl).length
      · rw [List.getElem?_append_left hj] at hip
        rw [List.getElem?_append_left (by rw [leafMaps_length]; exact hj)] at hmp
        obtain ⟨nj, hnj⟩ := ihl uq m n j ip mp hip hmp
        refine ⟨nj, ?_⟩
        simp only [skolemize, extract_all_predicates]
        rw [List.getElem?_append_left (by rw [extract_length_skolemize]; exact hj)]
        exact hnj
      · have hj2 : (extract_all_predicates cl).length ≤ j := Nat.le_of_not_lt hj
        rw [List.getElem?_append_right hj2] at hip
        rw [List.getElem?_append_right (by rw [leafMaps_length]; exact hj2),
          leafMaps_length] at hmp
        obtain ⟨nj, hnj⟩ := ihr uq m (skolemize cl uq m n).2
          (j - (extract_all_predicates cl).length) ip mp hip hmp
        refine ⟨nj, ?_⟩
        simp only [skolemize, extract_all_predicates]
        rw [List.getElem?_append_right
          (by rw [extract_length_skolemize]; exact hj2), extract_length_skolemize]
        exact hnj
  | implies cl cr ihl ihr =>
      intro uq m n j ip mp hip hmp
      simp only [extract_all_predicates] at hip
      simp only [leafMaps] at hmp
      by_cases hj : j < (extract_all_predicates cl).length
      · rw [List.getElem?_append_left hj] at hip
        rw [List.getElem?_append_left (by rw [leafMaps_length]; exact hj)] at hmp
        obtain ⟨nj, hnj⟩ := ihl uq m n j ip mp hip hmp
        refine ⟨nj, ?_⟩
        simp only [skolemize, extract_all_predicates]
        rw [List.getElem?_append_left (by rw [extract_length_skolemize]; exact hj)]
        exact hnj
      · have hj2 : (extract_all_predicates cl).length ≤ j := Nat.le_of_not_lt hj
        rw [List.getElem?_append_right hj2] at hip
        rw [List.getElem?_append_right (by rw [leafMaps_length]; exact hj2),
          leafMaps_length] at hmp
        obtain ⟨nj, hnj⟩ := ihr uq m (skolemize cl uq m n).2
          (j - (extract_all_predicates cl).length) ip mp hip hmp
        refine ⟨nj, ?_⟩
        simp only [skolemize, extract_all_predicates]
        rw [List.getElem?_append_right
          (by rw [extract_length_skolemize]; exact hj2), extract_length_skolemize]
        exact hnj

/-- Claim C4: on an input clause with uniquely named bound variables and no
pre-existing Skolem terms, `skolemize` returns a clause with no
`ThereExists` node; every `SkolemFunction` embedded in the result captures
the scope of one of the input's existential binders; and, per occurrence:
the `j`-th predicate leaf of the result matches the `j`-th input leaf in
name and arity, and whenever that input leaf's argument `i` is a name `s`
bound in that leaf's own effective map, the result's argument `i` is a
Skolem term capturing exactly the universal variable names enclosing the
`ThereExists` binder of `s` itself (the map's entry for `s`, which is the
unique scope recorded for `s`, in binding order); an unbound name stays
unchanged at its position. -/
theorem skolemize_no_exists_scoped_c4 (c : FirstOrderLogicClause) (n : Nat)
    (hnodup : (boundNames c).Nodup) (hns : noSkolems c = true) :
    noThereExists (skolemize c [] (fun _ => none) n).1 = true
    ∧ (∀ sf ∈ skolemFuncs (skolemize c [] (fun _ => none) n).1,
        ∃ v, (v, sf.vars) ∈ exScopes c [])
    ∧ (leafMaps c [] (fun _ => none)).length = (extract_all_predicates c).length
    ∧ (extract_all_predicates (skolemize c [] (fun _ => none) n).1).length
        = (extract_all_predicates c).length
    ∧ ∀ (j : Nat) (ip : Predicate) (mp : String → Option (List String)),
        (extract_all_predicates c)[j]? = some ip →
        (leafMaps c [] (fun _ => none))[j]? = some mp →
        ∃ op, (extract_all_predicates (skolemize c [] (fun _ => none) n).1)[j]?
            = some op
          ∧ op.name = ip.name
          ∧ op.arguments.length = ip.arguments.length
          ∧ ∀ (i : Nat) (s : String), ip.arguments[i]? = some (.str s) →
              (∀ l, mp s = some l →
                  (∃ nm, op.arguments[i]? = some (.skolem ⟨nm, l⟩))
                  ∧ (s, l) ∈ exScopes c []
                  ∧ ∀ l2, (s, l2) ∈ exScopes c [] → l2 = l)
              ∧ (mp s = none → op.arguments[i]? = some (.str s)) := by
  refine ⟨noThereExists_skolemize c [] _ n, ?_, leafMaps_length c [] _,
    extract_length_skolemize c [] _ n, ?_⟩
  · intro sf hsf
    rcases skolemFuncs_skolemize c [] (fun _ => none) n hns sf hsf with
      ⟨v, hv⟩ | hv
    · cases hv
    · exact hv
  · intro j ip mp hip hmp
    obtain ⟨nj, hnj⟩ := skolemize_leaf_get c [] (fun _ => none) n j ip mp hip hmp
    refine ⟨⟨ip.name, (skolemizeArgs ip.arguments mp nj).1⟩, hnj, rfl,
      (skolemizeArgs_get ip.arguments mp nj).1, ?_⟩
    intro i s hi
    have hsp := (skolemizeArgs_get ip.arguments mp nj).2 i s hi
    refine ⟨?_, hsp.2⟩
    intro l hl
    have hmem : mp ∈ leafMaps c [] (fun _ => none) := by
      rcases List.getElem?_eq_some.mp hmp with ⟨hlt, hget⟩
      exact hget ▸ List.getElem_mem hlt
    have hscope : (s, l) ∈ exScopes c [] := by
      rcases leafMaps_scoped c [] (fun _ => none) mp hmem s l hl with h | h
      · cases h
      · exact h
    have hkeys : ((exScopes c []).map Prod.fst).Nodup := by
      rw [exScopes_keys]
      exact List.Nodup.sublist (exBoundNames_sublist_boundNames c) hnodup
    exact ⟨hsp.1 l hl, hscope,
      fun l2 hl2 => nodupKeys_functional (exScopes c []) hkeys s l2 l hl2 hscope⟩

/-- Claim C4 witness: the per-occurrence invariant instantiated at
`for_all (X) there_exists (Y) P(X, Y)`. -/
theorem skolemize_no_exists_scoped_c4_witness :
    (boundNames (FirstOrderLogicClause.forAll ["X"]
        (.thereExists ["Y"] (.pred ⟨"P", [.str "X", .str "Y"]⟩)))).Nodup
    ∧ noSkolems (FirstOrderLogicClause.forAll ["X"]
        (.thereExists ["Y"] (.pred ⟨"P", [.str "X", .str "Y"]⟩))) = true
    ∧ (noThereExists (skolemize (FirstOrderLogicClause.forAll ["X"]
          (.thereExists ["Y"] (.pred ⟨"P", [.str "X", .str "Y"]⟩)))
          [] (fun _ => none) 0).1 = true
        ∧ (∀ sf ∈ skolemFuncs (skolemize (FirstOrderLogicClause.forAll ["X"]
            (.thereExists ["Y"] (.pred ⟨"P", [.str "X", .str "Y"]⟩)))
            [] (fun _ => none) 0).1,
            ∃ v, (v, sf.vars) ∈ exScopes (FirstOrderLogicClause.forAll ["X"]
                (.thereExists ["Y"] (.pred ⟨"P", [.str "X", .str "Y"]⟩))) [])
        ∧ (leafMaps (FirstOrderLogicClause.forAll ["X"]
              (.thereExists ["Y"] (.pred ⟨"P", [.str "X", .str "Y"]⟩)))
              [] (fun _ => none)).length
            = (extract_all_predicates (FirstOrderLogicClause.forAll ["X"]
              (.thereExists ["Y"] (.pred ⟨"P", [.str "X", .str "Y"]⟩)))).length
        ∧ (extract_all_predicates (skolemize (FirstOrderLogicClause.forAll ["X"]
              (.thereExists ["Y"] (.pred ⟨"P", [.str "X", .str "Y"]⟩)))
              [] (fun _ => none) 0).1).length
            = (extract_all_predicates (FirstOrderLogicClause.forAll ["X"]
              (.thereExists ["Y"] (.pred ⟨"P", [.str "X", .str "Y"]⟩)))).length
        ∧ ∀ (j : Nat) (ip : Predicate) (mp : String → Option (List String)),
            (extract_all_predicates (FirstOrderLogicClause.forAll ["X"]
              (.thereExists ["Y"] (.pred ⟨"P", [.str "X", .str "Y"]⟩))))[j]?
              = some ip →
            (leafMaps (FirstOrderLogicClause.forAll ["X"]
              (.thereExists ["Y"] (.pred ⟨"P", [.str "X", .str "Y"]⟩)))
              [] (fun _ => none))[j]? = some mp →
            ∃ op, (extract_all_predicates (skolemize
                (FirstOrderLogicClause.forAll ["X"]
                  (.thereExists ["Y"] (.pred ⟨"P", [.str "X", .str "Y"]⟩)))
                [] (fun _ => none) 0).1)[j]? = some op
              ∧ op.name = ip.name
              ∧ op.arguments.length = ip.arguments.length
              ∧ ∀ (i : Nat) (s : String), ip.arguments[i]? = some (.str s) →
                  (∀ l, mp s = some l →
                      (∃ nm, op.arguments[i]? = some (.skolem ⟨nm, l⟩))
                      ∧ (s, l) ∈ exScopes (FirstOrderLogicClause.forAll ["X"]
                          (.thereExists ["Y"]
                            (.pred ⟨"P", [.str "X", .str "Y"]⟩))) []
                      ∧ ∀ l2, (s, l2) ∈ exScopes
                          (FirstOrderLogicClause.forAll ["X"]
                            (.thereExists ["Y"]
                              (.pred ⟨"P", [.str "X", .str "Y"]⟩))) []
                          → l2 = l)
              ∧ (mp s = none → op.arguments[i]? = some (.str s))) :=
  ⟨by decide, by decide,
    skolemize_no_exists_scoped_c4 _ 0 (by decide) (by decide)⟩

/-- Substituting a variable by a term fixes the term itself: a name payload
replaces the name everywhere (in particular by itself), and a Skolem
payload cannot occur inside captured-name lists. -/
theorem substArg_self (v : String) (b : PredicateArgument) :
    substArg v b b = b := by
  cases b with
  | str s =>
      simp only [substArg]
      by_cases h : s = v <;> simp [h]
  | skolem f => simp [substArg]

/-- A term with a variable name is that name token. -/
theorem varName_eq (t : PredicateArgument) (v : String)
    (h : varName t = some v) : t = .str v := by
  cases t with
  | str s =>
      simp only [varName] at h
      split at h
      · injection h with h2
        rw [h2]
      · cases h
  | skolem f => simp [varName] at h

/-- Loop invariant of the unification loop: a returned substitution equates
the two components of every pair it was started on. -/
theorem resolveAux_sound (k : Nat) :
    ∀ (l : List (PredicateArgument × PredicateArgument))
      (sig : List (String × PredicateArgument)),
      resolveAux k l = some sig →
      ∀ pr ∈ l, applySub sig pr.1 = applySub sig pr.2 := by
  induction k with
  | zero =>
      intro l sig h pr hpr
      cases l with
      | nil => cases hpr
      | cons p rest => simp [resolveAux] at h
  | succ k ih =>
      intro l sig h
      cases l with
      | nil => intro pr hpr; cases hpr
      | cons ab rest =>
          obtain ⟨a, b⟩ := ab
          cases hva : varName a with
          | some v =>
              simp only [resolveAux, hva] at h
              cases hres : resolveAux k (substPairs v b rest) with
              | none => simp [hres] at h
              | some sig2 =>
                  simp only [hres, Option.map] at h
                  injection h with h
                  subst h
                  have hts := ih (substPairs v b rest) sig2 hres
                  intro pr hpr
                  rcases List.mem_cons.mp hpr with h1 | hmem
                  · subst h1
                    have ha := varName_eq a v hva
                    subst ha
                    simp only [applySub, List.foldl_cons]
                    rw [show substArg v b (.str v) = b from by simp [substArg]]
                    rw [substArg_self]
                  · have hmem2 : (substArg v b pr.1, substArg v b pr.2)
                        ∈ substPairs v b rest := by
                      simp only [substPairs]
                      exact List.mem_map_of_mem _ hmem
                    have h3 := hts _ hmem2
                    simpa only [applySub, List.foldl_cons] using h3
          | none =>
              cases hvb : varName b with
              | some w =>
                  simp only [resolveAux, hva, hvb] at h
                  cases hres : resolveAux k (substPairs w a rest) with
                  | none => simp [hres] at h
                  | some sig2 =>
                      simp only [hres, Option.map] at h
                      injection h with h
                      subst h
                      have hts := ih (substPairs w a rest) sig2 hres
                      intro pr hpr
                      rcases List.mem_cons.mp hpr with h1 | hmem
                      · subst h1
                        have hb2 := varName_eq b w hvb
                        subst hb2
                        simp only [applySub, List.foldl_cons]
                        rw [show substArg w a (.str w) = a from by simp [substArg]]
                        rw [substArg_self]
                      · have hmem2 : (substArg w a pr.1, substArg w a pr.2)
                            ∈ substPairs w a rest := by
                          simp only [substPairs]
                          exact List.mem_map_of_mem _ hmem
                        have h3 := hts _ hmem2
                        simpa only [applySub, List.foldl_cons] using h3
              | none =>
                  simp only [resolveAux, hva, hvb] at h
                  by_cases hab : a = b
                  · rw [if_pos hab] at h
                    have hts := ih rest sig h
                    intro pr hpr
                    rcases List.mem_cons.mp hpr with h1 | hmem
                    · subst h1
                      rw [hab]
                    · exact hts pr hmem
                  · rw [if_neg hab] at h
                    cases h

/-- Mapping a function over two equal-length lists yields equal results
when it equates every zipped pair. -/
theorem map_eq_of_zip {α β : Type} (f : α → β) :
    ∀ (xs ys : List α), xs.length = ys.length →
      (∀ pr ∈ xs.zip ys, f pr.1 = f pr.2) → xs.map f = ys.map f := by
  intro xs
  induction xs with
  | nil =>
      intro ys hlen hall
      cases ys with
      | nil => rfl
      | cons y ys => simp at hlen
  | cons x xs ih =>
      intro ys hlen hall
      cases ys with
      | nil => simp at hlen
      | cons y ys =>
          have h1 : f x = f y := hall (x, y) (by simp [List.zip_cons_cons])
          have h2 := ih ys (by simpa using hlen)
            (fun pr hpr => hall pr (by simp [List.zip_cons_cons, hpr]))
          simp [h1, h2]

/-- Every same-named literal paired against `p` in the disagreement build
has matching arity and contributes all its argument pairs. -/
theorem pairsWithAll_mem (p : Predicate) :
    ∀ (qs : List Predicate)
      (d : List (PredicateArgument × PredicateArgument)),
      pairsWithAll p qs = some d →
      ∀ q ∈ qs, p.name = q.name →
        p.arguments.length = q.arguments.length
        ∧ ∀ pr ∈ p.arguments.zip q.arguments, pr ∈ d := by
  intro qs
  induction qs with
  | nil => intro d h q hq; cases hq
  | cons q0 qs ih =>
      intro d h q hq hname
      cases hlp : literalPairs p q0 with
      | none => simp [pairsWithAll, hlp] at h
      | some h1 =>
          cases hpw : pairsWithAll p qs with
          | none => simp [pairsWithAll, hlp, hpw] at h
          | some t1 =>
              simp only [pairsWithAll, hlp, hpw, Option.bind] at h
              injection h with h
              subst h
              rcases List.mem_cons.mp hq with h2 | h2
              · subst h2
                simp only [literalPairs, if_pos hname] at hlp
                split at hlp
                · rename_i hlen
                  injection hlp with hlp
                  subst hlp
                  exact ⟨hlen, fun pr hpr => List.mem_append.mpr (Or.inl hpr)⟩
                · cases hlp
              · have h3 := ih t1 hpw q h2 hname
                exact ⟨h3.1,
                  fun pr hpr => List.mem_append.mpr (Or.inr (h3.2 pr hpr))⟩

/-- The disagreement build pairs every same-named literal of the first
sequence with every literal of the second and requires matching arity. -/
theorem buildDisagreement_mem :
    ∀ (ps qs : List Predicate)
      (d : List (PredicateArgument × PredicateArgument)),
      buildDisagreement ps qs = some d →
      ∀ p ∈ ps, ∀ q ∈ qs, p.name = q.name →
        p.arguments.length = q.arguments.length
        ∧ ∀ pr ∈ p.arguments.zip q.arguments, pr ∈ d := by
  intro ps
  induction ps with
  | nil => intro qs d h p hp; cases hp
  | cons p0 ps ih =>
      intro qs d h p hp q hq hname
      cases hpw : pairsWithAll p0 qs with
      | none => simp [buildDisagreement, hpw] at h
      | some h1 =>
          cases hbd : buildDisagreement ps qs with
          | none => simp [buildDisagreement, hpw, hbd] at h
          | some t1 =>
              simp only [buildDisagreement, hpw, hbd, Option.bind] at h
              injection h with h
              subst h
              rcases List.mem_cons.mp hp with h2 | h2
              · subst h2
                have h3 := pairsWithAll_mem p qs h1 hpw q hq hname
                exact ⟨h3.1,
                  fun pr hpr => List.mem_append.mpr (Or.inl (h3.2 pr hpr))⟩
              · have h3 := ih qs t1 hbd p h2 q hq hname
                exact ⟨h3.1,
                  fun pr hpr => List.mem_append.mpr (Or.inr (h3.2 pr hpr))⟩

/-- Soundness of the modelled unifier: a returned substitution makes the
argument lists of every pair of same-named literals identical. -/
theorem unify_sound_aux (x y : FirstOrderLogicClause)
    (sig : List (String × PredicateArgument)) (h : unify x y = some sig) :
    makesIdentical sig x y := by
  cases hb : buildDisagreement (extract_all_predicates x)
      (extract_all_predicates y) with
  | none => simp [unify, hb] at h
  | some d =>
      simp only [unify, hb, Option.bind] at h
      intro p hp q hq hname
      have hbm := buildDisagreement_mem (extract_all_predicates x)
        (extract_all_predicates y) d hb p hp q hq hname
      exact map_eq_of_zip (applySub sig) p.arguments q.arguments hbm.1
        (fun pr hpr => resolveAux_sound d.length d sig h pr (hbm.2 pr hpr))

/-- Claim C9: whenever the (spec-modelled) `unify` succeeds with a
substitution, applying it to the arguments of every pair of same-named
literals across the two clauses yields syntactically identical argument
lists; and when no substitution at all satisfies that postcondition,
`unify` fails with `NoUnifier` (`none`). -/
theorem unify_postcondition_c9 (x y : FirstOrderLogicClause) :
    (∀ sig, unify x y = some sig → makesIdentical sig x y)
    ∧ ((∀ sig, ¬ makesIdentical sig x y) → unify x y = none) := by
  refine ⟨fun sig h => unify_sound_aux x y sig h, fun hno => ?_⟩
  cases hu : unify x y with
  | none => rfl
  | some sig => exact absurd (unify_sound_aux x y sig hu) (hno sig)

/-- Claim C9 witness: the spec's concrete scenario
`unify(P(X, Y), P(a, b))` succeeds with the substitution
`X to a, Y to b`, and that substitution satisfies the postcondition. -/
theorem unify_postcondition_c9_witness :
    unify (.pred ⟨"P", [.str "X", .str "Y"]⟩)
        (.pred ⟨"P", [.str "a", .str "b"]⟩)
      = some [("X", .str "a"), ("Y", .str "b")]
    ∧ makesIdentical [("X", .str "a"), ("Y", .str "b")]
        (.pred ⟨"P", [.str "X", .str "Y"]⟩)
        (.pred ⟨"P", [.str "a", .str "b"]⟩) :=
  ⟨by decide,
    (unify_postcondition_c9 (.pred ⟨"P", [.str "X", .str "Y"]⟩)
        (.pred ⟨"P", [.str "a", .str "b"]⟩)).1 _ (by decide)⟩
